import Mathlib

/-!
Verification development for the Seq2Single place-recognition pipeline
(`seq2single.ipynb`).  Descriptor and depth values are embedded as exact
rationals; cosine distances, which involve square roots, live in `ℝ`.
NumPy arrays of statically known shape are embedded as functions from
index naturals (together with explicit size parameters), and 1-D arrays
whose length matters are embedded as lists.
-/

namespace Seq2Single

/-- Scalar `astype(int)`: truncation toward zero. -/
def truncQ (q : ℚ) : ℤ := if 0 ≤ q then ⌊q⌋ else ⌈q⌉

/-- Per-column `np.argmax(t, axis=0)`: for one column `c` of a `[S, channels]` array:
the first spatial index attaining the maximal response of channel `c`. -/
def argmaxFlat (S : ℕ) (t : ℕ → ℕ → ℚ) (c : ℕ) : ℕ :=
  (List.range S).foldl (fun best s => if t best c < t s c then s else best) 0

/-- Source `getKP2d` for one flat keypoint index: unravel into `(row, col)` with
`row = kpInd / resCols`, `col = kpInd % resCols`, scale each axis, truncate
to integer, and flip the axis order, returning `(x, y)`. -/
def getKP2d (kpInd : ℕ) (resRows resCols : ℕ) (mulRow mulCol : ℚ) : ℤ × ℤ :=
  (truncQ (((kpInd % resCols : ℕ) : ℚ) * mulCol),
   truncQ (((kpInd / resCols : ℕ) : ℚ) * mulRow))

/-- Source `getKpDep` for one flat keypoint index: project to pixel coordinates and
index the depth map as `depImg[y, x]`. -/
def getKpDep (kpInd : ℕ) (depImg : ℕ → ℕ → ℚ) (resRows resCols : ℕ)
    (mulRow mulCol : ℚ) : ℚ :=
  depImg (getKP2d kpInd resRows resCols mulRow mulCol).2.toNat
    (getKP2d kpInd resRows resCols mulRow mulCol).1.toNat

/-- Source `getRefSeqInfo`: `np.arange(max(refIdx - seqLen//2, 0),
min(refIdx + ceil(seqLen/2), maxIndVal))`.  For a natural `seqLen`,
`int(np.ceil(seqLen/2.0)) = (seqLen + 1) / 2`. -/
def getRefSeqInfo (refIdx maxIndVal seqLen : ℕ) : List ℕ :=
  let lb := max (refIdx - seqLen / 2) 0
  let ub := min (refIdx + (seqLen + 1) / 2) maxIndVal
  List.range' lb (ub - lb)

/-- Source `filterKPs_depth`: `np.argwhere(np.multiply(kp_d < maxD, kp_d > minD))[:,0]`,
the ascending list of positions whose depth lies strictly between the bounds. -/
def filterKPs_depth (kp_d : List ℚ) (minD maxD : ℚ) : List ℕ :=
  (List.range kp_d.length).filter (fun i => kp_d.getD i 0 < maxD ∧ minD < kp_d.getD i 0)

/-- Rowwise `np.sum(d1*d2, axis=1)` for one row pair. -/
def dotQ (d1 d2 : List ℚ) : ℚ := ((d1.zip d2).map (fun p => p.1 * p.2)).sum

/-- Sum of squares of one descriptor row (the square of `np.linalg.norm`). -/
def sumSq (d : List ℚ) : ℚ := (d.map (fun x => x * x)).sum

/-- Row `s` of a `[S, numFmaps]` array, as the list of its channel values. -/
def rowOf (t : ℕ → ℕ → ℚ) (numFmaps s : ℕ) : List ℚ :=
  (List.range numFmaps).map (fun j => t s j)

/-- Source `get_cosine_corresponding_vectors` for one row pair:
`1 - np.sum(d1*d2) / (np.linalg.norm(d1) * np.linalg.norm(d2))`. -/
noncomputable def cosineDistQ (d1 d2 : List ℚ) : ℝ :=
  1 - ((dotQ d1 d2 : ℚ) : ℝ) /
    (Real.sqrt ((sumSq d1 : ℚ) : ℝ) * Real.sqrt ((sumSq d2 : ℚ) : ℝ))

/-- The `np.min` along the window axis of the distance table, embedded with the
sentinel `100` as fold base.  Every table cell is either a cosine distance
(at most `2`) or the sentinel itself, so on the non-empty rows the code
takes the fold agrees with `np.min`; NumPy raises on an empty axis. -/
noncomputable def npMin (l : List ℝ) : ℝ := l.foldr min 100

/-- The `np.mean` of a list: sum divided by length.  On the empty list NumPy produces NaN
with a warning; in `ℝ` the division `0 / 0` yields `0`, a fixed defined
value standing in for that non-aborting degenerate outcome. -/
noncomputable def npMean (l : List ℝ) : ℝ := l.sum / l.length

/-- The run constants of `matchData` together with the two global reference
arrays it reads (`denseFtRefAll`, `depImgRefAll`).  `S` is the flattened
spatial cell count of the `c5Rows × c5Cols` grid. -/
structure MatchCtx where
  denseFtRefAll : ℕ → ℕ → ℕ → ℚ
  depImgRefAll : ℕ → ℕ → ℕ → ℚ
  S : ℕ
  c5Rows : ℕ
  c5Cols : ℕ
  mulRow : ℚ
  mulCol : ℚ
  numRefImgs : ℕ
  numFmaps : ℕ
  seqLen : ℕ
  depThresh : ℚ

/-- The context `ctx` with its depth threshold replaced. -/
def withThresh (ctx : MatchCtx) (t : ℚ) : MatchCtx :=
  ⟨ctx.denseFtRefAll, ctx.depImgRefAll, ctx.S, ctx.c5Rows, ctx.c5Cols,
   ctx.mulRow, ctx.mulCol, ctx.numRefImgs, ctx.numFmaps, ctx.seqLen, t⟩

/-- Source `kp2IndFlat = np.argmax(denseDescQuery, axis=0)`: the query-side
keypoint cell of channel `c`, computed once per query. -/
def kp2IndFlat (ctx : MatchCtx) (q : ℕ → ℕ → ℚ) (c : ℕ) : ℕ :=
  argmaxFlat ctx.S q c

/-- Source `kp1IndFlatRef = np.argmax(denseFtRefAll[k], axis=0)`: the reference-side
keypoint cell of channel `c` in window frame `k`. -/
def refKpInd (ctx : MatchCtx) (k c : ℕ) : ℕ :=
  argmaxFlat ctx.S (ctx.denseFtRefAll k) c

/-- Source `kp1_depth = getKpDep(kp1IndFlatRef, depImgRefAll[k], c5Shape, mulFac)`:
per-channel depths of frame `k`'s keypoints. -/
def kp1Depths (ctx : MatchCtx) (k : ℕ) : List ℚ :=
  (List.range ctx.numFmaps).map
    (fun c => getKpDep (refKpInd ctx k c) (ctx.depImgRefAll k)
      ctx.c5Rows ctx.c5Cols ctx.mulRow ctx.mulCol)

/-- Source `inRangeInds = filterKPs_depth(kp1_depth, 0, depThresh)`: channels whose
frame-`k` keypoint passes the depth filter. -/
def inRangeInds (ctx : MatchCtx) (k : ℕ) : List ℕ :=
  filterKPs_depth (kp1Depths ctx k) 0 ctx.depThresh

/-- A row of `descRefSubset`: the reference descriptor row of frame `k` at
channel `c`'s reference keypoint cell. -/
def refDesc (ctx : MatchCtx) (k c : ℕ) : List ℚ :=
  rowOf (ctx.denseFtRefAll k) ctx.numFmaps (refKpInd ctx k c)

/-- A row of `descQuerySubset`: the query descriptor row at channel `c`'s
query keypoint cell. -/
def queryDesc (ctx : MatchCtx) (q : ℕ → ℕ → ℚ) (c : ℕ) : List ℚ :=
  rowOf q ctx.numFmaps (kp2IndFlat ctx q c)

/-- One cell of `distMat`: initialized to the sentinel `100` and overwritten
with the channel's cosine distance when the channel is depth-valid in frame
`k` (the fancy assignment `distMat[inRangeInds, lc] = dists` writes exactly
the rows listed in `inRangeInds`, which are distinct). -/
noncomputable def distCell (ctx : MatchCtx) (q : ℕ → ℕ → ℚ) (k c : ℕ) : ℝ :=
  if c ∈ inRangeInds ctx k then cosineDistQ (refDesc ctx k c) (queryDesc ctx q c)
  else 100

/-- Source `minDists = np.min(distMat, axis=1)` for channel `c` of candidate `r`:
the collapse of the distance table across the sequence window. -/
noncomputable def minDists (ctx : MatchCtx) (q : ℕ → ℕ → ℚ) (r c : ℕ) : ℝ :=
  npMin ((getRefSeqInfo r ctx.numRefImgs ctx.seqLen).map (fun k => distCell ctx q k c))

open Classical in
/-- Source `validInds1 = np.argwhere(minDists != 100).flatten()`: the channels whose
collapsed value is no longer the sentinel. -/
noncomputable def validInds1 (ctx : MatchCtx) (q : ℕ → ℕ → ℚ) (r : ℕ) : List ℕ :=
  (List.range ctx.numFmaps).filter (fun c => minDists ctx q r c ≠ 100)

/-- Source `meanDist = np.mean(minDists[validInds1])`: the score of candidate `r`. -/
noncomputable def matchScore (ctx : MatchCtx) (q : ℕ → ℕ → ℚ) (r : ℕ) : ℝ :=
  npMean ((validInds1 ctx q r).map (fun c => minDists ctx q r c))

/-- Source `matchData`: one score per entry of `topMatchIndsList`, appended in
list order. -/
noncomputable def matchData (ctx : MatchCtx) (q : ℕ → ℕ → ℚ)
    (topMatchIndsList : List ℕ) : List ℝ :=
  topMatchIndsList.map (fun r => matchScore ctx q r)

/- ### Global retrieval and batch driver -/

/-- The whole run's inputs: the `matchData` context plus the global
descriptor arrays, the on-demand query dense tensors, and the remaining
configuration scalars. -/
structure RunCfg where
  ctx : MatchCtx
  imgDescRef : ℕ → List ℚ
  imgDescQuery : ℕ → List ℚ
  denseFtQueryAll : ℕ → ℕ → ℕ → ℚ
  numQueryImgs : ℕ
  topN : ℕ

/-- Source `distMat = cdist(imgDescRef, imgDescQuery, "cosine")`: entry at
reference row `r`, query column `q`. -/
noncomputable def distMatG (cfg : RunCfg) (r q : ℕ) : ℝ :=
  cosineDistQ (cfg.imgDescRef r) (cfg.imgDescQuery q)

open Classical in
/-- Source `topMatches[:, q] = np.argsort(distMat, axis=0)[:topN, q]`: the reference
indices sorted by ascending distance to query `q`, truncated to the first
`topN`.  `argsort` is embedded as a sort of the index range by the column's
distances (`argsort` fixes no particular order on ties). -/
noncomputable def topMatchesCol (cfg : RunCfg) (q : ℕ) : List ℕ :=
  (List.insertionSort (fun i j => distMatG cfg i q ≤ distMatG cfg j q)
    (List.range cfg.ctx.numRefImgs)).take cfg.topN

/-- Source `processQueryIndex`: load query `q`'s dense tensor and score its
candidate list with `matchData`. -/
noncomputable def processQueryIndex (cfg : RunCfg) (q : ℕ) : List ℝ :=
  matchData cfg.ctx (cfg.denseFtQueryAll q) (topMatchesCol cfg q)

/-- The sequential driver: `finalScores.append(processQueryIndex(i))` for
`i in range(numQueryImgs)`. -/
noncomputable def finalScoresSeq (cfg : RunCfg) : List (List ℝ) :=
  (List.range cfg.numQueryImgs).map (fun q => processQueryIndex cfg q)

/-- The multithreaded driver: for each batch start in
`range(0, numQueryImgs, numT)`, `pool.map(processQueryIndex,
range(i, min(i+numT, numQueryImgs)))` (which returns its results in
argument order), batch results concatenated.  `range(0, n, t)` has
`(n + t - 1) / t` elements for `t ≥ 1`. -/
noncomputable def finalScoresPar (cfg : RunCfg) (numT : ℕ) : List (List ℝ) :=
  ((List.range' 0 ((cfg.numQueryImgs + numT - 1) / numT) numT).map
    (fun i => (List.range' i (min (i + numT) cfg.numQueryImgs - i)).map
      (fun q => processQueryIndex cfg q))).flatten

open Classical in
/-- The `np.argmin` over one score row: the first position attaining the
minimum (`0` on the empty row, where NumPy raises). -/
noncomputable def argminIdx (l : List ℝ) : ℕ :=
  (List.range l.length).foldl (fun best i => if l.getD i 0 < l.getD best 0 then i else best) 0

/-- Source `bestMatch[q] = topMatches[np.argmin(finalScores, axis=1)[q], q]`. -/
noncomputable def bestMatch (cfg : RunCfg) (q : ℕ) : ℕ :=
  (topMatchesCol cfg q).getD (argminIdx (processQueryIndex cfg q)) 0

/-- Rows of `matchesOut.txt`: `(q, bestMatch[q])` for each query index. -/
noncomputable def matchesOut (cfg : RunCfg) : List (ℕ × ℕ) :=
  (List.range cfg.numQueryImgs).map (fun q => (q, bestMatch cfg q))

/-- Rows of `matchesBaseline.txt`: `(q, topMatches[0, q])` for each query
index. -/
noncomputable def matchesBaseline (cfg : RunCfg) : List (ℕ × ℕ) :=
  (List.range cfg.numQueryImgs).map (fun q => (q, (topMatchesCol cfg q).getD 0 0))

/- ### Explicit-state view of the shared reference data -/

/-- The reference-side arrays shared by every per-query call: loaded once
and only ever read. -/
structure SharedRefs where
  denseFtRefAll : ℕ → ℕ → ℕ → ℚ
  depImgRefAll : ℕ → ℕ → ℕ → ℚ
  imgDescRef : ℕ → List ℚ
  imgDescQuery : ℕ → List ℚ
  topMatches : ℕ → List ℕ

/-- Source `processQueryIndex` with the shared state passed and returned
explicitly: the body only reads `sh`, so the state component of the result
is the input state itself. -/
noncomputable def processQueryIndexSt (sh : SharedRefs)
    (S c5Rows c5Cols : ℕ) (mulRow mulCol : ℚ) (numRefImgs numFmaps seqLen : ℕ)
    (depThresh : ℚ) (denseFtQueryAll : ℕ → ℕ → ℕ → ℚ) (q : ℕ) :
    List ℝ × SharedRefs :=
  (matchData
      ⟨sh.denseFtRefAll, sh.depImgRefAll, S, c5Rows, c5Cols, mulRow, mulCol,
       numRefImgs, numFmaps, seqLen, depThresh⟩
      (denseFtQueryAll q) (sh.topMatches q),
   sh)

/- ### Small concrete instances used by the witnesses -/

/-- A tiny concrete context: one reference image, a `1 × 1` spatial grid,
one feature channel, window length `1`, unit descriptors, depth `1`
everywhere, threshold `98`. -/
def ctxW : MatchCtx :=
  ⟨fun _ _ _ => 1, fun _ _ _ => 1, 1, 1, 1, 1, 1, 1, 1, 1, 98⟩

/-- Like `ctxW` but with every reference depth equal to `200`, outside the
`(0, 98)` range, so no channel ever passes the depth filter. -/
def ctxE : MatchCtx :=
  ⟨fun _ _ _ => 1, fun _ _ _ => 200, 1, 1, 1, 1, 1, 1, 1, 1, 98⟩

/-- A unit query tensor. -/
def qW : ℕ → ℕ → ℚ := fun _ _ => 1

/-- A tiny concrete run configuration around `ctxW` with one query image. -/
def cfgW : RunCfg :=
  ⟨ctxW, fun _ => [1], fun _ => [1], fun _ _ _ => 1, 1, 5⟩

end Seq2Single

namespace Seq2Single

/- ### Claim theorems for the leaf helpers -/

/-- Claim C3: `filterKPs_depth` returns exactly the indices `i < length d`
with `minD < d[i] < maxD`, both comparisons strict. -/
theorem filterKPs_depth_spec (d : List ℚ) (minD maxD : ℚ) (i : ℕ) :
    i ∈ filterKPs_depth d minD maxD ↔
      i < d.length ∧ minD < d.getD i 0 ∧ d.getD i 0 < maxD := by
  simp only [filterKPs_depth, List.mem_filter, List.mem_range, decide_eq_true_eq]
  tauto

/-- Claim C2 (amended): for `r < count` the output of `getRefSeqInfo` is
exactly the integer range `[max(r - L/2, 0), min(r + ceil(L/2), count))`;
it is strictly increasing, contained in `[0, count)`, of length at most `L`,
and non-empty whenever `1 ≤ L` (for `L = 0` the range is empty). -/
theorem getRefSeqInfo_spec (r count L : ℕ) (h : r < count) :
    (∀ i : ℕ, i ∈ getRefSeqInfo r count L ↔
        (max ((r : ℤ) - (L : ℤ) / 2) 0 ≤ (i : ℤ) ∧
          (i : ℤ) < min ((r : ℤ) + ((L : ℤ) + 1) / 2) (count : ℤ)))
    ∧ List.Sorted (· < ·) (getRefSeqInfo r count L)
    ∧ (∀ i ∈ getRefSeqInfo r count L, i < count)
    ∧ (getRefSeqInfo r count L).length ≤ L
    ∧ (1 ≤ L → getRefSeqInfo r count L ≠ []) := by
  refine ⟨?_, ?_, ?_, ?_, ?_⟩
  · intro i
    simp only [getRefSeqInfo, List.mem_range'_1]
    omega
  · simp only [getRefSeqInfo]
    exact List.pairwise_lt_range' _ _
  · intro i hi
    simp only [getRefSeqInfo, List.mem_range'_1] at hi
    omega
  · simp only [getRefSeqInfo, List.length_range']
    omega
  · intro hL
    have hlen : 0 < (getRefSeqInfo r count L).length := by
      simp only [getRefSeqInfo, List.length_range']
      omega
    exact List.length_pos.mp hlen

/-- Claim C2, counterexample to the unamended claim: at `r = 0`, `count = 1`
(so `0 ≤ r < count`) and window length `L = 0`, the builder's output is
empty, contradicting unconditional non-emptiness. -/
theorem getRefSeqInfo_counterexample : (0 : ℕ) < 1 ∧ getRefSeqInfo 0 1 0 = [] :=
  ⟨Nat.zero_lt_one, rfl⟩

/-- Witness for the amended claim C2 at `r = 2`, `count = 5`, `L = 3`. -/
theorem getRefSeqInfo_spec_witness :
    2 < 5 ∧
    ((∀ i : ℕ, i ∈ getRefSeqInfo 2 5 3 ↔
        (max ((2 : ℤ) - (3 : ℤ) / 2) 0 ≤ (i : ℤ) ∧
          (i : ℤ) < min ((2 : ℤ) + ((3 : ℤ) + 1) / 2) (5 : ℤ)))
    ∧ List.Sorted (· < ·) (getRefSeqInfo 2 5 3)
    ∧ (∀ i ∈ getRefSeqInfo 2 5 3, i < 5)
    ∧ (getRefSeqInfo 2 5 3).length ≤ 3
    ∧ (1 ≤ 3 → getRefSeqInfo 2 5 3 ≠ [])) :=
  ⟨by decide, getRefSeqInfo_spec 2 5 3 (by decide)⟩

/-- The truncation `truncQ` agrees with the floor on nonnegative arguments. -/
theorem truncQ_eq_floor (q : ℚ) (h : 0 ≤ q) : truncQ q = ⌊q⌋ := if_pos h

/-- Claim C4: with scale factors `fullRows/gridRows` and `fullCols/gridCols`,
the projector sends flat index `f` to
`(x, y) = (⌊(f % gridCols) * scaleCol⌋, ⌊(f / gridCols) * scaleRow⌋)`, and the
keypoint depth is the depth-map entry at row `y`, column `x`. -/
theorem getKP2d_getKpDep_spec (f gridRows gridCols fullRows fullCols : ℕ)
    (depImg : ℕ → ℕ → ℚ) (hf : f < gridRows * gridCols) :
    getKP2d f gridRows gridCols ((fullRows : ℚ) / gridRows) ((fullCols : ℚ) / gridCols)
      = (⌊((f % gridCols : ℕ) : ℚ) * ((fullCols : ℚ) / gridCols)⌋,
         ⌊((f / gridCols : ℕ) : ℚ) * ((fullRows : ℚ) / gridRows)⌋)
    ∧ getKpDep f depImg gridRows gridCols ((fullRows : ℚ) / gridRows) ((fullCols : ℚ) / gridCols)
      = depImg (⌊((f / gridCols : ℕ) : ℚ) * ((fullRows : ℚ) / gridRows)⌋).toNat
          (⌊((f % gridCols : ℕ) : ℚ) * ((fullCols : ℚ) / gridCols)⌋).toNat := by
  have hx : truncQ (((f % gridCols : ℕ) : ℚ) * ((fullCols : ℚ) / gridCols))
      = ⌊((f % gridCols : ℕ) : ℚ) * ((fullCols : ℚ) / gridCols)⌋ :=
    truncQ_eq_floor _ (mul_nonneg (Nat.cast_nonneg _) (div_nonneg (Nat.cast_nonneg _) (Nat.cast_nonneg _)))
  have hy : truncQ (((f / gridCols : ℕ) : ℚ) * ((fullRows : ℚ) / gridRows))
      = ⌊((f / gridCols : ℕ) : ℚ) * ((fullRows : ℚ) / gridRows)⌋ :=
    truncQ_eq_floor _ (mul_nonneg (Nat.cast_nonneg _) (div_nonneg (Nat.cast_nonneg _) (Nat.cast_nonneg _)))
  constructor
  · simp only [getKP2d, hx, hy]
  · simp only [getKpDep, getKP2d, hx, hy]

/-- Witness for claim C4 at `f = 7` in a `2 × 4` grid with an `8 × 12`
depth map. -/
theorem getKP2d_getKpDep_spec_witness :
    7 < 2 * 4 ∧
    (getKP2d 7 2 4 ((8 : ℚ) / 2) ((12 : ℚ) / 4)
      = (⌊((7 % 4 : ℕ) : ℚ) * ((12 : ℚ) / 4)⌋, ⌊((7 / 4 : ℕ) : ℚ) * ((8 : ℚ) / 2)⌋)
    ∧ getKpDep 7 (fun r c => (r : ℚ) + 10 * c) 2 4 ((8 : ℚ) / 2) ((12 : ℚ) / 4)
      = (fun r c => (r : ℚ) + 10 * c) (⌊((7 / 4 : ℕ) : ℚ) * ((8 : ℚ) / 2)⌋).toNat
          (⌊((7 % 4 : ℕ) : ℚ) * ((12 : ℚ) / 4)⌋).toNat) :=
  ⟨by decide, getKP2d_getKpDep_spec 7 2 4 8 12 (fun r c => (r : ℚ) + 10 * c) (by decide)⟩

/- ### The cosine distance never reaches the sentinel value -/

theorem list_sum_eq_range (l : List ℚ) :
    l.sum = ∑ i in Finset.range l.length, l.getD i 0 := by
  induction l with
  | nil => simp
  | cons x xs ih =>
    rw [List.sum_cons, List.length_cons, Finset.sum_range_succ', ih]
    simp [add_comm]

theorem sumSq_nonneg (d : List ℚ) : 0 ≤ sumSq d := by
  induction d with
  | nil => simp [sumSq]
  | cons x xs ih =>
    have hx := mul_self_nonneg x
    simp only [sumSq, List.map_cons, List.sum_cons] at ih ⊢
    exact add_nonneg hx ih

theorem getD_map_of_lt {α β : Type} (f : α → β) (l : List α) (p : ℕ)
    (hp : p < l.length) (d : β) (d0 : α) :
    (l.map f).getD p d = f (l.getD p d0) := by
  have h1 : p < (l.map f).length := by simpa using hp
  rw [List.getD_eq_getElem _ _ h1, List.getElem_map, List.getD_eq_getElem _ _ hp]

theorem dotQ_eq_range (d1 d2 : List ℚ) :
    dotQ d1 d2 = ∑ i in Finset.range (min d1.length d2.length),
      d1.getD i 0 * d2.getD i 0 := by
  rw [dotQ, list_sum_eq_range, List.length_map, List.length_zip]
  refine Finset.sum_congr rfl ?_
  intro i hi
  rw [Finset.mem_range] at hi
  have h2 : i < (d1.zip d2).length := by
    rw [List.length_zip]; exact hi
  rw [getD_map_of_lt _ _ _ h2 _ (0, 0), List.getD_eq_getElem _ _ h2, List.getElem_zip]
  have l1 : i < d1.length := lt_of_lt_of_le hi (min_le_left _ _)
  have l2 : i < d2.length := lt_of_lt_of_le hi (min_le_right _ _)
  rw [List.getD_eq_getElem _ _ l1, List.getD_eq_getElem _ _ l2]

theorem sumSq_eq_range (d : List ℚ) :
    sumSq d = ∑ i in Finset.range d.length, d.getD i 0 * d.getD i 0 := by
  rw [sumSq, list_sum_eq_range, List.length_map]
  refine Finset.sum_congr rfl ?_
  intro i hi
  rw [Finset.mem_range] at hi
  rw [getD_map_of_lt _ _ _ hi _ 0]

/-- Cauchy–Schwarz for the code's dot product and squared norms. -/
theorem dotQ_sq_le (d1 d2 : List ℚ) : dotQ d1 d2 ^ 2 ≤ sumSq d1 * sumSq d2 := by
  rw [dotQ_eq_range, sumSq_eq_range, sumSq_eq_range]
  have cs := Finset.sum_mul_sq_le_sq_mul_sq (Finset.range (min d1.length d2.length))
    (fun i => d1.getD i 0) (fun i => d2.getD i 0)
  refine le_trans cs ?_
  have h1 : ∑ i in Finset.range (min d1.length d2.length), d1.getD i 0 ^ 2
      ≤ ∑ i in Finset.range d1.length, d1.getD i 0 * d1.getD i 0 := by
    refine le_trans (le_of_eq (Finset.sum_congr rfl (fun i _ => sq (d1.getD i 0) ▸ by ring)))
      (Finset.sum_le_sum_of_subset_of_nonneg
        (Finset.range_subset.mpr (min_le_left _ _)) ?_)
    intro i _ _
    exact mul_self_nonneg _
  have h2 : ∑ i in Finset.range (min d1.length d2.length), d2.getD i 0 ^ 2
      ≤ ∑ i in Finset.range d2.length, d2.getD i 0 * d2.getD i 0 := by
    refine le_trans (le_of_eq (Finset.sum_congr rfl (fun i _ => by ring)))
      (Finset.sum_le_sum_of_subset_of_nonneg
        (Finset.range_subset.mpr (min_le_right _ _)) ?_)
    intro i _ _
    exact mul_self_nonneg _
  have h1nn : (0:ℚ) ≤ ∑ i in Finset.range (min d1.length d2.length), d1.getD i 0 ^ 2 :=
    Finset.sum_nonneg (fun i _ => sq_nonneg _)
  have h2nn : (0:ℚ) ≤ ∑ i in Finset.range d1.length, d1.getD i 0 * d1.getD i 0 :=
    Finset.sum_nonneg (fun i _ => mul_self_nonneg _)
  have h3nn : (0:ℚ) ≤ ∑ i in Finset.range (min d1.length d2.length), d2.getD i 0 ^ 2 :=
    Finset.sum_nonneg (fun i _ => sq_nonneg _)
  exact mul_le_mul h1 h2 h3nn h2nn

/-- The cosine distance of any two rational descriptor rows is at most `2`,
in particular strictly below the sentinel `100`. -/
theorem cosineDistQ_le_two (d1 d2 : List ℚ) : cosineDistQ d1 d2 ≤ 2 := by
  have hA : (0:ℝ) ≤ ((sumSq d1 : ℚ) : ℝ) := by exact_mod_cast sumSq_nonneg d1
  have hB : (0:ℝ) ≤ ((sumSq d2 : ℚ) : ℝ) := by exact_mod_cast sumSq_nonneg d2
  have hcs : ((dotQ d1 d2 : ℚ) : ℝ) ^ 2 ≤ ((sumSq d1 : ℚ) : ℝ) * ((sumSq d2 : ℚ) : ℝ) := by
    exact_mod_cast dotQ_sq_le d1 d2
  have habs : |((dotQ d1 d2 : ℚ) : ℝ)|
      ≤ Real.sqrt ((sumSq d1 : ℚ) : ℝ) * Real.sqrt ((sumSq d2 : ℚ) : ℝ) := by
    rw [← Real.sqrt_mul hA, ← Real.sqrt_sq_eq_abs]
    exact Real.sqrt_le_sqrt hcs
  rcases eq_or_lt_of_le
      (mul_nonneg (Real.sqrt_nonneg ((sumSq d1 : ℚ) : ℝ))
        (Real.sqrt_nonneg ((sumSq d2 : ℚ) : ℝ))) with hz | hp
  · rw [cosineDistQ, ← hz, div_zero]
    norm_num
  · rw [cosineDistQ]
    have hu : -(Real.sqrt ((sumSq d1 : ℚ) : ℝ) * Real.sqrt ((sumSq d2 : ℚ) : ℝ))
        ≤ ((dotQ d1 d2 : ℚ) : ℝ) := by
      have h1 := neg_abs_le ((dotQ d1 d2 : ℚ) : ℝ)
      linarith
    have hdiv : (-1 : ℝ) ≤ ((dotQ d1 d2 : ℚ) : ℝ) /
        (Real.sqrt ((sumSq d1 : ℚ) : ℝ) * Real.sqrt ((sumSq d2 : ℚ) : ℝ)) := by
      rw [le_div_iff₀ hp]
      linarith
    linarith

/- ### Collapsing the sentinel-initialized distance table -/

theorem npMin_nil : npMin [] = 100 := rfl

theorem npMin_cons (x : ℝ) (xs : List ℝ) : npMin (x :: xs) = min x (npMin xs) := rfl

theorem npMin_le_100 (l : List ℝ) : npMin l ≤ 100 := by
  induction l with
  | nil => exact le_refl _
  | cons x xs ih =>
    rw [npMin_cons]
    exact le_trans (min_le_right _ _) ih

theorem npMin_le_of_mem {l : List ℝ} {x : ℝ} (h : x ∈ l) : npMin l ≤ x := by
  induction l with
  | nil => cases h
  | cons y ys ih =>
    rw [npMin_cons]
    rcases List.mem_cons.mp h with rfl | h2
    · exact min_le_left _ _
    · exact le_trans (min_le_right _ _) (ih h2)

theorem npMin_all_100 {l : List ℝ} (h : ∀ x ∈ l, x = (100:ℝ)) : npMin l = 100 := by
  induction l with
  | nil => rfl
  | cons y ys ih =>
    rw [npMin_cons, h y (List.mem_cons_self y ys),
      ih (fun x hx => h x (List.mem_cons_of_mem _ hx))]
    exact min_self _

/-- Dropping the sentinel cells from a table row does not change its
minimum, as long as at least one non-sentinel cell remains. -/
theorem npMin_map_ite {p : ℕ → Prop} [DecidablePred p] (f : ℕ → ℝ) (l : List ℕ)
    (hne : l.filter (fun k => p k) ≠ []) :
    npMin (l.map (fun k => if p k then f k else 100))
      = npMin ((l.filter (fun k => p k)).map f) := by
  induction l with
  | nil => simp at hne
  | cons k ks ih =>
    by_cases hk : p k
    · rw [List.map_cons, if_pos hk, npMin_cons,
        List.filter_cons_of_pos (by simpa using hk), List.map_cons, npMin_cons]
      by_cases hks : ks.filter (fun k => p k) = []
      · have h1 : npMin (ks.map (fun k => if p k then f k else 100)) = 100 := by
          apply npMin_all_100
          intro x hx
          rcases List.mem_map.mp hx with ⟨a, ha, rfl⟩
          have hna : ¬ p a := by
            intro hpa
            have : a ∈ ks.filter (fun k => p k) :=
              List.mem_filter.mpr ⟨ha, by simpa using hpa⟩
            simp [hks] at this
          rw [if_neg hna]
        rw [h1, hks, List.map_nil, npMin_nil]
      · rw [ih hks]
    · rw [List.map_cons, if_neg hk, npMin_cons,
        List.filter_cons_of_neg (by simpa using hk)]
      have hne2 : ks.filter (fun k => p k) ≠ [] := by
        rw [List.filter_cons_of_neg (by simpa using hk)] at hne
        exact hne
      rw [ih hne2]
      exact min_eq_right (npMin_le_100 _)

/-- A table row collapses to the sentinel exactly when every cell kept it,
provided the non-sentinel cells stay at cosine-distance scale. -/
theorem npMin_map_ite_eq_100 {p : ℕ → Prop} [DecidablePred p] (f : ℕ → ℝ)
    (l : List ℕ) (hf : ∀ k ∈ l, f k ≤ 2) :
    (npMin (l.map (fun k => if p k then f k else 100)) = 100 ↔ ∀ k ∈ l, ¬ p k) := by
  constructor
  · intro h100 k hk hpk
    have hmem : f k ∈ l.map (fun k => if p k then f k else 100) := by
      refine List.mem_map.mpr ⟨k, hk, ?_⟩
      rw [if_pos hpk]
    have h1 := npMin_le_of_mem hmem
    have h2 := hf k hk
    rw [h100] at h1
    linarith
  · intro hall
    apply npMin_all_100
    intro x hx
    rcases List.mem_map.mp hx with ⟨a, ha, rfl⟩
    rw [if_neg (hall a ha)]

/-- The sentinel bridge: the collapsed value of channel `c` stays `100`
precisely when `c` passes the depth filter in no frame of the window. -/
theorem minDists_eq_100_iff (ctx : MatchCtx) (q : ℕ → ℕ → ℚ) (r c : ℕ) :
    minDists ctx q r c = 100 ↔
      ∀ k ∈ getRefSeqInfo r ctx.numRefImgs ctx.seqLen, c ∉ inRangeInds ctx k := by
  simp only [minDists, distCell]
  exact npMin_map_ite_eq_100 _ _ (fun k _ => cosineDistQ_le_two _ _)

/-- Claim C7: widening the depth interval can only grow the depth filter's
output, and therefore a channel whose table row still holds the sentinel
under the wider threshold also holds it under the stricter one. -/
theorem depth_threshold_monotone (d : List ℚ) (minD t1 t2 : ℚ) (ctx : MatchCtx)
    (q : ℕ → ℕ → ℚ) (h12 : t1 ≤ t2) :
    (∀ i ∈ filterKPs_depth d minD t1, i ∈ filterKPs_depth d minD t2)
    ∧ ∀ r c, minDists (withThresh ctx t2) q r c = 100 →
        minDists (withThresh ctx t1) q r c = 100 := by
  constructor
  · intro i hi
    rw [filterKPs_depth_spec] at hi ⊢
    exact ⟨hi.1, hi.2.1, lt_of_lt_of_le hi.2.2 h12⟩
  · intro r c h2
    rw [minDists_eq_100_iff] at h2 ⊢
    intro k hk hmem
    refine h2 k hk ?_
    rw [inRangeInds, filterKPs_depth_spec] at hmem ⊢
    exact ⟨hmem.1, hmem.2.1, lt_of_lt_of_le hmem.2.2 h12⟩

/-- Witness for claim C7 at thresholds `50 ≤ 98`; channel index `5` lies
beyond the single feature channel of `ctxW`, so its row keeps the sentinel
under both thresholds. -/
theorem depth_threshold_monotone_witness :
    (50 : ℚ) ≤ 98 ∧
    ((∀ i ∈ filterKPs_depth [(1:ℚ), 200] 0 50, i ∈ filterKPs_depth [(1:ℚ), 200] 0 98)
    ∧ ∀ r c, minDists (withThresh ctxW 98) qW r c = 100 →
        minDists (withThresh ctxW 50) qW r c = 100) :=
  ⟨by norm_num, depth_threshold_monotone [(1:ℚ), 200] 0 50 98 ctxW qW (by norm_num)⟩

open Classical in
/-- Claim C1: for a query tensor with nonzero-norm rows and a candidate
whose window has at least one depth-valid channel in some frame, the score
`matchData` produces at position `p` is the mean, over the channels valid
in at least one window frame, of the per-channel minimum over its valid
frames of the cosine distance between the reference descriptor row at that
frame's argmax cell and the query descriptor row at the query's argmax
cell; channels valid in no frame are excluded. -/
theorem matchData_score_spec (ctx : MatchCtx) (q : ℕ → ℕ → ℚ) (l : List ℕ) (p : ℕ)
    (hp : p < l.length)
    (hq : ∀ s, s < ctx.S → sumSq (rowOf q ctx.numFmaps s) ≠ 0)
    (hvalid : ∃ k ∈ getRefSeqInfo (l.getD p 0) ctx.numRefImgs ctx.seqLen,
      inRangeInds ctx k ≠ []) :
    (matchData ctx q l).getD p 0 =
      (((List.range ctx.numFmaps).filter
          (fun c => ∃ k ∈ getRefSeqInfo (l.getD p 0) ctx.numRefImgs ctx.seqLen,
            c ∈ inRangeInds ctx k)).map
        (fun c => npMin
          (((getRefSeqInfo (l.getD p 0) ctx.numRefImgs ctx.seqLen).filter
              (fun k => c ∈ inRangeInds ctx k)).map
            (fun k => cosineDistQ (refDesc ctx k c) (queryDesc ctx q c))))).sum
      / (((List.range ctx.numFmaps).filter
          (fun c => ∃ k ∈ getRefSeqInfo (l.getD p 0) ctx.numRefImgs ctx.seqLen,
            c ∈ inRangeInds ctx k)).length) := by
  rw [matchData, getD_map_of_lt _ _ _ hp _ 0, matchScore, npMean]
  have hfilter : validInds1 ctx q (l.getD p 0) =
      (List.range ctx.numFmaps).filter
        (fun c => ∃ k ∈ getRefSeqInfo (l.getD p 0) ctx.numRefImgs ctx.seqLen,
          c ∈ inRangeInds ctx k) := by
    rw [validInds1]
    apply List.filter_congr
    intro c _
    rw [decide_eq_decide]
    rw [ne_eq, minDists_eq_100_iff]
    push_neg
    simp only [exists_prop]
  rw [hfilter]
  have hmap : ((List.range ctx.numFmaps).filter
        (fun c => ∃ k ∈ getRefSeqInfo (l.getD p 0) ctx.numRefImgs ctx.seqLen,
          c ∈ inRangeInds ctx k)).map (fun c => minDists ctx q (l.getD p 0) c)
      = ((List.range ctx.numFmaps).filter
          (fun c => ∃ k ∈ getRefSeqInfo (l.getD p 0) ctx.numRefImgs ctx.seqLen,
            c ∈ inRangeInds ctx k)).map
        (fun c => npMin
          (((getRefSeqInfo (l.getD p 0) ctx.numRefImgs ctx.seqLen).filter
              (fun k => c ∈ inRangeInds ctx k)).map
            (fun k => cosineDistQ (refDesc ctx k c) (queryDesc ctx q c)))) := by
    apply List.map_congr_left
    intro c hc
    rw [List.mem_filter] at hc
    have hex : ∃ k ∈ getRefSeqInfo (l.getD p 0) ctx.numRefImgs ctx.seqLen,
        c ∈ inRangeInds ctx k := by
      have := hc.2
      exact of_decide_eq_true this
    obtain ⟨k, hk1, hk2⟩ := hex
    have hne : (getRefSeqInfo (l.getD p 0) ctx.numRefImgs ctx.seqLen).filter
        (fun k => c ∈ inRangeInds ctx k) ≠ [] :=
      List.ne_nil_of_mem (List.mem_filter.mpr ⟨hk1, by simpa using hk2⟩)
    rw [minDists]
    exact npMin_map_ite _ _ hne
  rw [hmap, List.length_map]

/-- Concrete evaluation: every row of the unit query tensor has nonzero
squared norm. -/
theorem ctxW_rows_nonzero : ∀ s, s < ctxW.S → sumSq (rowOf qW ctxW.numFmaps s) ≠ 0 := by
  intro s _
  norm_num [ctxW, qW, rowOf, sumSq, List.range_succ, List.range_zero]

/-- Concrete evaluation: in `ctxW`, frame `0` of candidate `0`'s window has
a depth-valid channel. -/
theorem ctxW_frame_valid :
    ∃ k ∈ getRefSeqInfo (([0] : List ℕ).getD 0 0) ctxW.numRefImgs ctxW.seqLen,
      inRangeInds ctxW k ≠ [] := by
  refine ⟨0, ?_, ?_⟩
  · decide
  · have h : inRangeInds ctxW 0 = [0] := by
      norm_num [inRangeInds, kp1Depths, refKpInd, argmaxFlat, getKpDep, getKP2d,
        truncQ, filterKPs_depth, ctxW, List.range_succ, List.range_zero, List.filter]
    rw [h]
    decide

/-- Witness for claim C1 on the unit one-channel configuration `ctxW`. -/
theorem matchData_score_spec_witness :
    0 < ([0] : List ℕ).length ∧
    (∀ s, s < ctxW.S → sumSq (rowOf qW ctxW.numFmaps s) ≠ 0) ∧
    (∃ k ∈ getRefSeqInfo (([0] : List ℕ).getD 0 0) ctxW.numRefImgs ctxW.seqLen,
      inRangeInds ctxW k ≠ []) ∧
    (matchData ctxW qW [0]).getD 0 0 =
      (((List.range ctxW.numFmaps).filter
          (fun c => ∃ k ∈ getRefSeqInfo (([0] : List ℕ).getD 0 0) ctxW.numRefImgs ctxW.seqLen,
            c ∈ inRangeInds ctxW k)).map
        (fun c => npMin
          (((getRefSeqInfo (([0] : List ℕ).getD 0 0) ctxW.numRefImgs ctxW.seqLen).filter
              (fun k => c ∈ inRangeInds ctxW k)).map
            (fun k => cosineDistQ (refDesc ctxW k c) (queryDesc ctxW qW c))))).sum
      / (((List.range ctxW.numFmaps).filter
          (fun c => ∃ k ∈ getRefSeqInfo (([0] : List ℕ).getD 0 0) ctxW.numRefImgs ctxW.seqLen,
            c ∈ inRangeInds ctxW k)).length) :=
  ⟨by decide, ctxW_rows_nonzero, ctxW_frame_valid,
    matchData_score_spec ctxW qW [0] 0 (by decide) ctxW_rows_nonzero ctxW_frame_valid⟩

/- ### The argmin fold -/

theorem foldl_min_invariant (l : List ℝ) :
    ∀ (idxs : List ℕ) (b : ℕ),
      (idxs.foldl (fun best i => if l.getD i 0 < l.getD best 0 then i else best) b = b
        ∨ idxs.foldl (fun best i => if l.getD i 0 < l.getD best 0 then i else best) b ∈ idxs)
      ∧ l.getD (idxs.foldl (fun best i => if l.getD i 0 < l.getD best 0 then i else best) b) 0
          ≤ l.getD b 0
      ∧ ∀ i ∈ idxs,
          l.getD (idxs.foldl (fun best i => if l.getD i 0 < l.getD best 0 then i else best) b) 0
            ≤ l.getD i 0 := by
  intro idxs
  induction idxs with
  | nil =>
    intro b
    refine ⟨Or.inl rfl, le_refl _, ?_⟩
    intro i hi
    cases hi
  | cons j js ih =>
    intro b
    rw [List.foldl_cons]
    obtain ⟨ih1, ih2, ih3⟩ := ih (if l.getD j 0 < l.getD b 0 then j else b)
    refine ⟨?_, ?_, ?_⟩
    · rcases ih1 with h | h
      · rw [h]
        by_cases hj : l.getD j 0 < l.getD b 0
        · rw [if_pos hj]
          exact Or.inr (List.mem_cons_self _ _)
        · rw [if_neg hj]
          exact Or.inl rfl
      · exact Or.inr (List.mem_cons_of_mem _ h)
    · refine le_trans ih2 ?_
      by_cases hj : l.getD j 0 < l.getD b 0
      · rw [if_pos hj]
        exact le_of_lt hj
      · rw [if_neg hj]
    · intro i hi
      rcases List.mem_cons.mp hi with rfl | hi2
      · refine le_trans ih2 ?_
        by_cases hj : l.getD i 0 < l.getD b 0
        · rw [if_pos hj]
        · rw [if_neg hj]
          exact le_of_not_lt hj
      · exact ih3 i hi2

theorem argminIdx_lt_length (l : List ℝ) (h : l ≠ []) : argminIdx l < l.length := by
  have h0 : 0 < l.length := List.length_pos.mpr h
  rw [argminIdx]
  obtain ⟨h1, -, -⟩ := foldl_min_invariant l (List.range l.length) 0
  rcases h1 with h1 | h1
  · rw [h1]
    exact h0
  · exact List.mem_range.mp h1

theorem argminIdx_le (l : List ℝ) (i : ℕ) (hi : i < l.length) :
    l.getD (argminIdx l) 0 ≤ l.getD i 0 := by
  rw [argminIdx]
  obtain ⟨-, -, h3⟩ := foldl_min_invariant l (List.range l.length) 0
  exact h3 i (List.mem_range.mpr hi)

/-- Claim C8: a candidate with no depth-valid channel anywhere in its
window still yields one score per candidate (the batch continues), its
entry is the defined value the embedding assigns to the empty mean, and
the arg-min selection over the score vector stays total. -/
theorem matchData_total_spec (ctx : MatchCtx) (q : ℕ → ℕ → ℚ) (l : List ℕ) (p : ℕ)
    (hl : l ≠ []) (hp : p < l.length)
    (hempty : ∀ k ∈ getRefSeqInfo (l.getD p 0) ctx.numRefImgs ctx.seqLen,
      inRangeInds ctx k = []) :
    (matchData ctx q l).length = l.length
    ∧ (matchData ctx q l).getD p 0 = npMean []
    ∧ argminIdx (matchData ctx q l) < (matchData ctx q l).length := by
  refine ⟨by rw [matchData, List.length_map], ?_, ?_⟩
  · rw [matchData, getD_map_of_lt _ _ _ hp _ 0, matchScore]
    have hnil : validInds1 ctx q (l.getD p 0) = [] := by
      rw [validInds1, List.filter_eq_nil_iff]
      intro c _
      simp only [decide_not, Bool.not_eq_true', decide_eq_false_iff_not, not_not]
      rw [minDists_eq_100_iff]
      intro k hk hmem
      rw [hempty k hk] at hmem
      cases hmem
    rw [hnil, List.map_nil]
  · apply argminIdx_lt_length
    rw [matchData]
    intro hcon
    exact hl (List.map_eq_nil_iff.mp hcon)

/-- Concrete evaluation: in `ctxE` (all depths `200`, threshold `98`), no
window frame of candidate `0` has a depth-valid channel. -/
theorem ctxE_all_invalid :
    ∀ k ∈ getRefSeqInfo (([0] : List ℕ).getD 0 0) ctxE.numRefImgs ctxE.seqLen,
      inRangeInds ctxE k = [] := by
  intro k hk
  have hw : getRefSeqInfo (([0] : List ℕ).getD 0 0) ctxE.numRefImgs ctxE.seqLen = [0] := rfl
  rw [hw, List.mem_singleton] at hk
  subst hk
  norm_num [inRangeInds, kp1Depths, refKpInd, argmaxFlat, getKpDep, getKP2d,
    truncQ, filterKPs_depth, ctxE, List.range_succ, List.range_zero, List.filter]

/-- Witness for claim C8 on `ctxE`, whose reference depths all lie outside
the trusted interval. -/
theorem matchData_total_spec_witness :
    ([0] : List ℕ) ≠ [] ∧ 0 < ([0] : List ℕ).length ∧
    (∀ k ∈ getRefSeqInfo (([0] : List ℕ).getD 0 0) ctxE.numRefImgs ctxE.seqLen,
      inRangeInds ctxE k = []) ∧
    ((matchData ctxE qW [0]).length = ([0] : List ℕ).length
    ∧ (matchData ctxE qW [0]).getD 0 0 = npMean []
    ∧ argminIdx (matchData ctxE qW [0]) < (matchData ctxE qW [0]).length) :=
  ⟨by decide, by decide, ctxE_all_invalid,
    matchData_total_spec ctxE qW [0] 0 (by decide) (by decide) ctxE_all_invalid⟩

/- ### The batch driver and the output tables -/

theorem getD_map_range {β : Type} (f : ℕ → β) (n q : ℕ) (hq : q < n) (d : β) :
    ((List.range n).map f).getD q d = f q := by
  rw [getD_map_of_lt _ _ _ (by simpa using hq) _ 0]
  congr 1
  rw [List.getD_eq_getElem _ _ (by simpa using hq)]
  simp

/-- Claim C5: the re-ranked output table pairs each query `q` with its
candidate-list entry at the position minimizing the per-candidate score
vector, and the baseline table pairs `q` with the position-0 global
candidate. -/
theorem bestMatch_spec (cfg : RunCfg) (q : ℕ) (hq : q < cfg.numQueryImgs) :
    (matchesOut cfg).getD q (0, 0) =
      (q, (topMatchesCol cfg q).getD (argminIdx (processQueryIndex cfg q)) 0)
    ∧ (∀ i, i < (processQueryIndex cfg q).length →
        (processQueryIndex cfg q).getD (argminIdx (processQueryIndex cfg q)) 0
          ≤ (processQueryIndex cfg q).getD i 0)
    ∧ (matchesBaseline cfg).getD q (0, 0) = (q, (topMatchesCol cfg q).getD 0 0) := by
  refine ⟨?_, ?_, ?_⟩
  · rw [matchesOut, getD_map_range _ _ _ hq, bestMatch]
  · intro i hi
    exact argminIdx_le _ i hi
  · rw [matchesBaseline, getD_map_range _ _ _ hq]

/-- Witness for claim C5 on the one-query run `cfgW`. -/
theorem bestMatch_spec_witness :
    0 < cfgW.numQueryImgs ∧
    ((matchesOut cfgW).getD 0 (0, 0) =
      (0, (topMatchesCol cfgW 0).getD (argminIdx (processQueryIndex cfgW 0)) 0)
    ∧ (∀ i, i < (processQueryIndex cfgW 0).length →
        (processQueryIndex cfgW 0).getD (argminIdx (processQueryIndex cfgW 0)) 0
          ≤ (processQueryIndex cfgW 0).getD i 0)
    ∧ (matchesBaseline cfgW).getD 0 (0, 0) = (0, (topMatchesCol cfgW 0).getD 0 0)) :=
  ⟨by decide, bestMatch_spec cfgW 0 (by decide)⟩

/-- Claim C6: per query column, global retrieval extracts
`min topN numRefImgs` reference indices whose distances ascend, and the
index at position 0 attains the column's minimum distance. -/
theorem topMatches_spec (cfg : RunCfg) (q : ℕ) (htopN : 0 < cfg.topN)
    (hR : 0 < cfg.ctx.numRefImgs) :
    (topMatchesCol cfg q).length = min cfg.topN cfg.ctx.numRefImgs
    ∧ List.Sorted (fun i j => distMatG cfg i q ≤ distMatG cfg j q) (topMatchesCol cfg q)
    ∧ ∀ i, i < cfg.ctx.numRefImgs →
        distMatG cfg ((topMatchesCol cfg q).getD 0 0) q ≤ distMatG cfg i q := by
  haveI hTot : IsTotal ℕ (fun i j => distMatG cfg i q ≤ distMatG cfg j q) :=
    ⟨fun a b => le_total _ _⟩
  haveI hTr : IsTrans ℕ (fun i j => distMatG cfg i q ≤ distMatG cfg j q) :=
    ⟨fun a b c h1 h2 => le_trans h1 h2⟩
  have hperm := List.perm_insertionSort
    (fun i j => distMatG cfg i q ≤ distMatG cfg j q) (List.range cfg.ctx.numRefImgs)
  have hsorted := List.sorted_insertionSort
    (fun i j => distMatG cfg i q ≤ distMatG cfg j q) (List.range cfg.ctx.numRefImgs)
  refine ⟨?_, ?_, ?_⟩
  · rw [topMatchesCol, List.length_take, hperm.length_eq, List.length_range]
  · exact hsorted.sublist (List.take_sublist _ _)
  · intro i hi
    have hmem : i ∈ List.insertionSort (fun i j => distMatG cfg i q ≤ distMatG cfg j q)
        (List.range cfg.ctx.numRefImgs) :=
      hperm.mem_iff.mpr (List.mem_range.mpr hi)
    obtain ⟨x, rest, hL⟩ : ∃ x rest,
        List.insertionSort (fun i j => distMatG cfg i q ≤ distMatG cfg j q)
          (List.range cfg.ctx.numRefImgs) = x :: rest := by
      rcases hsort : List.insertionSort (fun i j => distMatG cfg i q ≤ distMatG cfg j q)
          (List.range cfg.ctx.numRefImgs) with _ | ⟨x, rest⟩
      · exfalso
        have := hperm.length_eq
        rw [hsort] at this
        simp only [List.length_nil, List.length_range] at this
        omega
      · exact ⟨x, rest, rfl⟩
    have hhead : (topMatchesCol cfg q).getD 0 0 = x := by
      rw [topMatchesCol, hL]
      rcases Nat.exists_eq_add_of_lt htopN with ⟨m, hm⟩
      rw [hm]
      simp [List.take_succ_cons]
    rw [hhead]
    rw [hL] at hsorted hmem
    rcases List.mem_cons.mp hmem with rfl | h2
    · exact le_refl _
    · exact (List.sorted_cons.mp hsorted).1 i h2

/-- Witness for claim C6 on `cfgW` (five candidates from one reference). -/
theorem topMatches_spec_witness :
    0 < cfgW.topN ∧ 0 < cfgW.ctx.numRefImgs ∧
    ((topMatchesCol cfgW 0).length = min cfgW.topN cfgW.ctx.numRefImgs
    ∧ List.Sorted (fun i j => distMatG cfgW i 0 ≤ distMatG cfgW j 0) (topMatchesCol cfgW 0)
    ∧ ∀ i, i < cfgW.ctx.numRefImgs →
        distMatG cfgW ((topMatchesCol cfgW 0).getD 0 0) 0 ≤ distMatG cfgW i 0) :=
  ⟨by decide, by decide, topMatches_spec cfgW 0 (by decide) (by decide)⟩

/- ### Sequential and batched drivers agree -/

theorem batched_join {α : Type} (f : ℕ → α) (t : ℕ) :
    ∀ (B s n : ℕ), n ≤ s + B * t →
      ((List.range' s B t).map (fun i => (List.range' i (min (i + t) n - i)).map f)).flatten
        = (List.range' s (n - s)).map f := by
  intro B
  induction B with
  | zero =>
    intro s n hn
    have h0 : n - s = 0 := by omega
    simp [h0]
  | succ B ih =>
    intro s n hn
    rw [List.range'_succ, List.map_cons, List.flatten_cons]
    have hn2 : n ≤ s + t + B * t := by
      rw [Nat.succ_mul] at hn
      omega
    by_cases hcase : n ≤ s + t
    · have h1 : min (s + t) n - s = n - s := by omega
      have h2 : n - (s + t) = 0 := by omega
      rw [h1, ih (s + t) n hn2, h2]
      simp
    · have h1 : min (s + t) n - s = t := by omega
      rw [h1, ih (s + t) n hn2, ← List.map_append, List.range'_append_1]
      congr 2
      omega

theorem le_ceilDiv_mul (n t : ℕ) (ht : 0 < t) : n ≤ ((n + t - 1) / t) * t := by
  rcases Nat.eq_zero_or_pos n with rfl | hn
  · simp
  · have h1 : n + t - 1 = (n - 1) + t := by omega
    rw [h1, Nat.add_div_right _ ht, Nat.add_mul, Nat.one_mul]
    have h2 := Nat.div_add_mod (n - 1) t
    have h3 : (n - 1) % t < t := Nat.mod_lt _ ht
    have h4 : (n - 1) / t * t = t * ((n - 1) / t) := Nat.mul_comm _ _
    omega

/-- Claim C9: the batched worker-pool driver and the sequential driver
produce identical score lists, and each entry is the result of processing
that query alone. -/
theorem parallel_refines_sequential (cfg : RunCfg) (numT : ℕ) (ht : 0 < numT) :
    finalScoresPar cfg numT = finalScoresSeq cfg
    ∧ ∀ q, q < cfg.numQueryImgs →
        (finalScoresSeq cfg).getD q [] = processQueryIndex cfg q := by
  constructor
  · rw [finalScoresPar, finalScoresSeq, List.range_eq_range']
    have hb := batched_join (fun q => processQueryIndex cfg q) numT
      ((cfg.numQueryImgs + numT - 1) / numT) 0 cfg.numQueryImgs
      (by simpa using le_ceilDiv_mul cfg.numQueryImgs numT ht)
    simpa using hb
  · intro q hq
    rw [finalScoresSeq]
    exact getD_map_range _ _ _ hq _

/-- Witness for claim C9 on `cfgW` with the notebook's four workers. -/
theorem parallel_refines_sequential_witness :
    0 < 4 ∧
    (finalScoresPar cfgW 4 = finalScoresSeq cfgW
    ∧ ∀ q, q < cfgW.numQueryImgs →
        (finalScoresSeq cfgW).getD q [] = processQueryIndex cfgW q) :=
  ⟨by decide, parallel_refines_sequential cfgW 4 (by decide)⟩

/-- Claim C10: a per-query scoring call, with the shared reference arrays
passed as explicit state, returns that state unchanged in every component,
and its score component is the pure `matchData` value. -/
theorem processQueryIndexSt_frame (sh : SharedRefs) (S c5Rows c5Cols : ℕ)
    (mulRow mulCol : ℚ) (numRefImgs numFmaps seqLen : ℕ) (depThresh : ℚ)
    (denseFtQueryAll : ℕ → ℕ → ℕ → ℚ) (q : ℕ) :
    (processQueryIndexSt sh S c5Rows c5Cols mulRow mulCol numRefImgs numFmaps
        seqLen depThresh denseFtQueryAll q).2.denseFtRefAll = sh.denseFtRefAll
    ∧ (processQueryIndexSt sh S c5Rows c5Cols mulRow mulCol numRefImgs numFmaps
        seqLen depThresh denseFtQueryAll q).2.depImgRefAll = sh.depImgRefAll
    ∧ (processQueryIndexSt sh S c5Rows c5Cols mulRow mulCol numRefImgs numFmaps
        seqLen depThresh denseFtQueryAll q).2.imgDescRef = sh.imgDescRef
    ∧ (processQueryIndexSt sh S c5Rows c5Cols mulRow mulCol numRefImgs numFmaps
        seqLen depThresh denseFtQueryAll q).2.imgDescQuery = sh.imgDescQuery
    ∧ (processQueryIndexSt sh S c5Rows c5Cols mulRow mulCol numRefImgs numFmaps
        seqLen depThresh denseFtQueryAll q).2.topMatches = sh.topMatches
    ∧ (processQueryIndexSt sh S c5Rows c5Cols mulRow mulCol numRefImgs numFmaps
        seqLen depThresh denseFtQueryAll q).1 =
        matchData
          ⟨sh.denseFtRefAll, sh.depImgRefAll, S, c5Rows, c5Cols, mulRow, mulCol,
           numRefImgs, numFmaps, seqLen, depThresh⟩
          (denseFtQueryAll q) (sh.topMatches q) :=
  ⟨rfl, rfl, rfl, rfl, rfl, rfl⟩

end Seq2Single
